import Mathlib

/-!
# Matchlock — verification of spec claims against a shallow embedding

Shallow embedding of the parts of the `matchlock` repository that the
frozen claims are about:

* the CLI command handlers `runRun`, `runExec`, `runRemove`
  (cmd/matchlock, `part_000`),
* the SDK JSON-RPC error codes and `sendRequest` response loop
  (`part_001`),
* `errx.With` / `errx.Wrap` (internal/errx/errx.go),
* `Builder.extractImage` tar extraction together with the lexical
  `path/filepath` functions `Clean` and `Join` it relies on (`part_002`),
* the state manager `Remove` operation and the MITM secret-substitution
  layer, which are not present under `src/` and are therefore modelled
  from the spec where noted.

Go strings are modelled as `String`; Go `error` values as an inductive
tree mirroring `fmt.Errorf` with `%w` wrapping; filesystem paths in the
tar-extraction development as `List Char` so that the byte-level
`strings.Contains(clean, "..")` check can be reasoned about exactly.
-/

namespace Matchlock

/-! ## Character-list helpers

Go strings viewed as `List Char`, with prefix/suffix/occurrence tests
used both by the host-pattern matcher and by the `path/filepath`
embedding. -/

/-- `pat` is an initial segment of `s`. -/
def leadsWith : List Char → List Char → Bool
  | [], _ => true
  | _ :: _, [] => false
  | a :: ps, b :: ss => a == b && leadsWith ps ss

/-- `pat` is a final segment of `s`. -/
def trailsWith (pat s : List Char) : Bool :=
  leadsWith pat.reverse s.reverse

/-- `pat` occurs contiguously somewhere in `s` (Go `strings.Contains`). -/
def occursIn (pat s : List Char) : Bool :=
  leadsWith pat s ||
    match s with
    | [] => false
    | _ :: rest => occursIn pat rest

/-! ## SDK error codes (src/unnamed/part_001, `const` block) -/

namespace sdk

def ErrCodeParse : Int := -32700
def ErrCodeInvalidRequest : Int := -32600
def ErrCodeMethodNotFound : Int := -32601
def ErrCodeInvalidParams : Int := -32602
def ErrCodeInternal : Int := -32603
def ErrCodeVMFailed : Int := -32000
def ErrCodeExecFailed : Int := -32001
def ErrCodeFileFailed : Int := -32002

/-- The complete list of error-code constants declared by the SDK
(`part_001` declares exactly these eight, in this order). -/
def sdkErrorCodes : List Int :=
  [ErrCodeParse, ErrCodeInvalidRequest, ErrCodeMethodNotFound,
   ErrCodeInvalidParams, ErrCodeInternal,
   ErrCodeVMFailed, ErrCodeExecFailed, ErrCodeFileFailed]

end sdk

/-! ## SDK `sendRequest` response loop (src/unnamed/part_001, lines 190–246)

`sendRequest` writes one request with a fresh `id`, then reads
newline-delimited responses: lines whose parsed `ID` field is absent
(notifications) are skipped, lines with a different `ID` are skipped,
and the first line whose `ID` equals the request id decides the call:
its `error` object, when present, is returned as an `*RPCError` with
that code and message; otherwise its `result` is returned. -/

namespace sdk

/-- A parsed JSON-RPC response line (the `response` struct). -/
structure Response where
  id? : Option Nat
  error? : Option (Int × String)
  result : String
  deriving DecidableEq, Repr

/-- Outcome of `sendRequest`'s read loop. -/
inductive SendOutcome where
  | ok (result : String)
  | rpcError (code : Int) (message : String)
  | readError
  deriving DecidableEq, Repr

/-- The read loop of `sendRequest` over the stream of parsed response
lines.  An exhausted stream corresponds to `ReadBytes` failing
(`readError`). -/
def sendRequestLoop (id : Nat) : List Response → SendOutcome
  | [] => .readError
  | r :: rest =>
    match r.id? with
    | none => sendRequestLoop id rest
    | some rid =>
      if rid ≠ id then sendRequestLoop id rest
      else
        match r.error? with
        | some (c, m) => .rpcError c m
        | none => .ok r.result

end sdk

/-! ## `errx` (src/internal/errx/errx.go)

Go errors are modelled as an inductive tree: `base` is a sentinel
created by `errors.New` (identified by a tag), `errorf` is the node
produced by `fmt.Errorf`, carrying the formatted message and the list
of errors bound to `%w` verbs.  `errorsIs` is Go's `errors.Is`:
equality with the target or a match anywhere in the wrapped tree.
A Go `error` variable is `Option Err` (`none` = `nil`). -/

namespace errx

inductive Err where
  | base (tag : Nat) (msg : String)
  | errorf (msg : String) (wrapped : List Err)

mutual

/-- Structural equality on the error tree (Go's `==` on the sentinels
this development compares). -/
def errBeq : Err → Err → Bool
  | .base t m, .base t' m' => t == t' && m == m'
  | .errorf m ws, .errorf m' ws' => m == m' && errListBeq ws ws'
  | _, _ => false

/-- `errBeq` pointwise over lists. -/
def errListBeq : List Err → List Err → Bool
  | [], [] => true
  | e :: es, f :: fs => errBeq e f && errListBeq es fs
  | _, _ => false

end

instance : BEq Err := ⟨errBeq⟩

mutual

/-- Go `errors.Is(e, target)` on the error tree. -/
def errorsIs : Err → Err → Bool
  | .base t m, target => errBeq (Err.base t m) target
  | .errorf m ws, target => errBeq (Err.errorf m ws) target || errorsIsAny ws target

/-- `errors.Is` over each element of an `Unwrap() []error` list. -/
def errorsIsAny : List Err → Err → Bool
  | [], _ => false
  | e :: es, target => errorsIs e target || errorsIsAny es target

end

/-- `fmt.Errorf(format, args...)` restricted to what `errx` uses: the
final message and the arguments bound to `%w` verbs. -/
def goErrorf (msg : String) (wrapped : List Err) : Err :=
  .errorf msg wrapped

/-- `errx.With(kind, format, args...)`: prefixes the formatted message
with the sentinel.  `wrapArgs` are the arguments bound to `%w` verbs in
`format` (for `Wrap`'s use, exactly one).  `formattedMsg` is the
rendered message text. -/
def With (kind : Option Err) (format : String) (formattedMsg : String)
    (wrapArgs : List Err) : Option Err :=
  match kind with
  | none =>
    if format = "" then none
    else some (goErrorf formattedMsg wrapArgs)
  | some k =>
    if format = "" then some k
    else some (goErrorf formattedMsg (k :: wrapArgs))

/-- `errx.Wrap(kind, err)`: `nil` when `err` is `nil`; `err` when
`kind` is `nil`; otherwise `With(kind, ": %w", err)`. -/
def Wrap (kind err : Option Err) : Option Err :=
  match err with
  | none => none
  | some e =>
    match kind with
    | none => some e
    | some k => With (some k) ": %w" (errMsg k ++ ": " ++ errMsg e) [e]
where
  /-- The `Error()` text of a node, used only to render messages. -/
  errMsg : Err → String
    | .base _ m => m
    | .errorf m _ => m

end errx

/-! ## `runRun` network configuration (src/unnamed/part_000, lines 226–329)

`runRun` builds the `api.Config` literal at lines 312–327.  The
`Network` field is constructed with `BlockPrivateIPs: true` — a literal,
not read from any flag, environment variable or config file. -/

namespace cli

/-- `api.Secret` as far as the CLI config is concerned. -/
structure Secret where
  value : String
  placeholder : String
  hosts : List String
  deriving DecidableEq, Repr

/-- `api.NetworkConfig` (fields used by `runRun`). -/
structure NetworkConfig where
  AllowedHosts : List String
  BlockPrivateIPs : Bool
  Secrets : List (String × Secret)
  deriving Repr

/-- `api.Resources` (fields used by `runRun`). -/
structure Resources where
  CPUs : Int
  MemoryMB : Int
  DiskSizeMB : Int
  TimeoutSeconds : Int
  deriving Repr

/-- `api.Config` (fields used by `runRun`). -/
structure Config where
  Image : String
  Privileged : Bool
  Resources : Resources
  Network : NetworkConfig
  deriving Repr

/-- The flag values `runRun` reads before building the config.  Every
CLI flag and `MATCHLOCK_*` environment variable that reaches the
config literal does so through one of these fields. -/
structure RunFlags where
  imageName : String
  cpus : Int
  memory : Int
  timeout : Int
  diskSize : Int
  privileged : Bool
  allowHosts : List String
  parsedSecrets : List (String × Secret)
  deriving Repr

/-- The `api.Config` literal built by `runRun` (part_000 lines
312–327): `BlockPrivateIPs` is the literal `true`. -/
def runRunConfig (f : RunFlags) : Config :=
  { Image := f.imageName
    Privileged := f.privileged
    Resources :=
      { CPUs := f.cpus
        MemoryMB := f.memory
        DiskSizeMB := f.diskSize
        TimeoutSeconds := f.timeout }
    Network :=
      { AllowedHosts := f.allowHosts
        BlockPrivateIPs := true
        Secrets := f.parsedSecrets } }

/-! ### CLI exit behavior (`runRun` lines 354–391, `runExec` lines
393–445, `main` lines 219–224)

`main` runs the cobra command; when its `RunE` returns an error, `main`
prints exactly one line to stderr and calls `os.Exit(1)` (cobra's
`SilenceErrors`/`SilenceUsage` are set, so nothing else is printed). -/

/-- Result of a `sandbox.Exec` call as the CLI observes it:
`completed` is `err == nil` with the guest's exit code. -/
inductive ExecOutcome where
  | completed (exitCode : Nat)
  | failed
  deriving DecidableEq, Repr

/-- Modelled from the spec: when the run's `--timeout` elapses during
the guest command, the exec completes with exit code 124 ("Exit codes:
… 124 on timeout").  The `sandbox` package that implements the timeout
is not under `src/`. -/
def timeoutOutcome : ExecOutcome := .completed 124

/-- How the `matchlock` process ends: `os.Exit(code)` (a nil `RunE`
return is exit 0), or `RunE` returned an error so `main` prints one
error line and exits 1. -/
inductive CLIExit where
  | exited (code : Nat)
  | errorLine (line : String)
  deriving DecidableEq, Repr

/-- The process exit code of a `CLIExit`. -/
def CLIExit.code : CLIExit → Nat
  | .exited n => n
  | .errorLine _ => 1

/-- How many error lines the process printed for this ending. -/
def CLIExit.errorLines : CLIExit → Nat
  | .exited _ => 0
  | .errorLine _ => 1

/-- The tail of `runRun` after a successful `Start` (part_000 lines
354–391): in interactive mode the process exits with
`runInteractive`'s code; otherwise, with a command, a failed exec
returns an error to `main` and a completed exec writes the output and
— only when `--rm` is set — exits with the guest's exit code; with
`--rm=false` the process blocks until the context is done, closes the
sandbox and returns nil (exit 0). -/
def runRunFinish (rm interactiveMode hasArgs : Bool)
    (interactiveExit : Nat) (outcome : ExecOutcome) : CLIExit :=
  if interactiveMode then .exited interactiveExit
  else if hasArgs then
    match outcome with
    | .failed => .errorLine "executing command: ..."
    | .completed code =>
      if rm then .exited code
      else .exited 0
  else .exited 0

/-- The tail of `runExec` after the relay call (part_000 lines
436–444): a relay error is returned to `main`; otherwise the process
writes the output and exits with the guest's exit code. -/
def runExecFinish (outcome : ExecOutcome) : CLIExit :=
  match outcome with
  | .failed => .errorLine "exec failed: ..."
  | .completed code => .exited code

/-! ### `runExec` guard sequence (part_000 lines 393–436) -/

/-- `state.VMState` as consulted by `runExec`. -/
structure VMState where
  Status : String
  deriving DecidableEq, Repr

/-- Modelled from the spec: `state.Manager.ExecSocketPath` — the
`exec.sock` file inside the sandbox's state directory (spec §6,
"Sandbox state directory … `exec.sock` (exec-relay listener)").  The
`state` package implementation is not under `src/`. -/
def execSocketPath (stateDir vmID : String) : String :=
  stateDir ++ "/" ++ vmID ++ "/exec.sock"

/-- What `runExec` does: return an error before any request is sent,
or relay the command into the sandbox over a socket path. -/
inductive ExecAction where
  | errorReturn
  | relayBuffered (socketPath : String)
  | relayInteractive (socketPath : String)
  deriving DecidableEq, Repr

/-- The guard sequence of `runExec` (part_000 lines 393–436): require
a command (or `-it`), look up the VM state, require status `running`,
require the exec socket to exist, and only then relay the command over
the exec socket.  `getState` is the `mgr.Get(vmID)` result and
`socketExists` the `os.Stat` check. -/
def runExecModel (stateDir vmID : String) (hasCmdArgs tty interactive : Bool)
    (getState : Option VMState) (socketExists : String → Bool) : ExecAction :=
  let interactiveMode := tty && interactive
  if !hasCmdArgs && !interactiveMode then .errorReturn
  else
    match getState with
    | none => .errorReturn
    | some st =>
      if st.Status ≠ "running" then .errorReturn
      else if !(socketExists (execSocketPath stateDir vmID)) then .errorReturn
      else if interactiveMode then .relayInteractive (execSocketPath stateDir vmID)
      else .relayBuffered (execSocketPath stateDir vmID)

end cli

/-! ## State manager (`pkg/state`)

The `state` package implementation is not under `src/` — only its
tests (src/pkg/state/state_test.go) and its callers in the CLI are —
so `Manager.Remove` is modelled from the spec. -/

namespace state

/-- Modelled from the spec: the on-disk state the manager tracks — one
directory per sandbox ID whose `status` file holds the status text
(spec §6 "Sandbox state directory"). -/
structure Store where
  entries : List (String × String)
  deriving DecidableEq, Repr

/-- Look up the stored status of a sandbox ID. -/
def Store.lookup (st : Store) (id : String) : Option String :=
  (st.entries.find? (fun p => p.1 == id)).map Prod.snd

/-- Modelled from the spec: `state.Manager.Remove` — errors naming the
ID when no state exists for it (spec P5: "`rm` on a nonexistent ID
returns a nonzero exit and a message naming the ID"), refuses
non-destructively when the stored status is `running`, and removes the
state directory otherwise (spec P6); corroborated by
`TestRemoveNonExistentVM`, `TestRemoveStoppedVM` and
`TestRemoveRunningVM` in src/pkg/state/state_test.go. -/
def Store.remove (st : Store) (id : String) : Except String Store :=
  match st.lookup id with
  | none => .error ("VM " ++ id ++ " not found")
  | some status =>
    if status = "running" then .error ("VM " ++ id ++ " is running")
    else .ok ⟨st.entries.filter (fun p => p.1 != id)⟩

/-- Outcome of a CLI subcommand's `RunE`. -/
inductive CmdResult where
  | ok
  | err (msg : String)
  deriving DecidableEq, Repr

/-- The exit code `main` produces for a `RunE` outcome (part_000 lines
219–224): errors are printed and the process exits 1. -/
def cmdExitCode : CmdResult → Nat
  | .ok => 0
  | .err _ => 1

/-- `runRemove` without `--stopped` (part_000 lines 819–846): error
when no ID argument is given; otherwise `mgr.Remove(id)`, whose error
is returned to `main` (exit 1) and whose success prints `Removed`. -/
def runRemove (st : Store) (args : List String) : CmdResult × Store :=
  match args with
  | [] => (.err "VM ID required (or use --stopped)", st)
  | id :: _ =>
    match st.remove id with
    | .error m => (.err m, st)
    | .ok st' => (.ok, st')

end state

/-! ## MITM secret substitution

The interception/MITM engine is not under `src/`; it is modelled from
the spec (§3 Secret, §4.3 MITM and policy engine, §3 lifecycle:
"their values are never written to any channel except as replacements
injected into outbound request headers on matching hosts"). -/

namespace mitm

/-- Modelled from the spec (§3): a secret's value, its placeholder
(never equal to the value) and its host patterns. -/
structure Secret where
  name : String
  value : String
  placeholder : String
  hosts : List String
  deriving DecidableEq, Repr

/-- Lower-cased characters of a pattern or host (spec §3: "Matching is
case-insensitive"). -/
def lowerChars (s : String) : List Char := s.data.map Char.toLower

/-- The byte sequence `pat` occurs contiguously inside `s` (Go
`strings.Contains`, at character granularity). -/
def occursInStr (pat s : String) : Bool := occursIn pat.data s.data

/-- Modelled from the spec (§3, §4.3): host patterns `*`, `*.suffix`
and `prefix-*.suffix`, matched case-insensitively; the one `*`
wildcard matches any remaining stretch of the host, but never across a
dot boundary except at the leftmost position; a pattern without `*`
(including an IP literal) matches only itself. -/
def patternMatches (pattern host : String) : Bool :=
  match (lowerChars pattern).splitOn '*' with
  | [q] => q == lowerChars host
  | [pre, suf] =>
    leadsWith pre (lowerChars host) && trailsWith suf (lowerChars host) &&
      (lowerChars host).length ≥ pre.length + suf.length &&
      (pre == ([] : List Char) ||
        !(((lowerChars host).drop pre.length).take
            ((lowerChars host).length - pre.length - suf.length)).any
          (fun c => c == '.'))
  | _ => false

/-- Does any of the secret's host patterns match the host? -/
def secretMatchesHost (s : Secret) (host : String) : Bool :=
  s.hosts.any (fun p => patternMatches p host)

/-- Modelled from the spec (§4.3): substitute one request-header
value — when a secret whose host set matches the request's host has
this value as its placeholder, the header value is replaced by the
secret's value; otherwise it is left alone.  The replacement is
applied once per header (the output is not rescanned). -/
def substituteHeaderValue (secrets : List Secret) (host v : String) : String :=
  match secrets.find? (fun s => secretMatchesHost s host && v == s.placeholder) with
  | some s => s.value
  | none => v

/-- The headers of the upstream request: every header value passed
through `substituteHeaderValue` exactly once. -/
def substituteRequest (secrets : List Secret) (host : String)
    (req : List (String × String)) : List (String × String) :=
  req.map (fun h => (h.1, substituteHeaderValue secrets host h.2))

/-- The side of the interceptor a write goes to: the guest-facing side
of the virtio-net device, or an upstream connection to a host. -/
inductive Channel where
  | toGuest
  | toUpstream (host : String)
  deriving DecidableEq, Repr

/-- One HTTP exchange through the interceptor: the guest's request
headers to a host and the upstream's raw response. -/
structure Exchange where
  host : String
  reqHeaders : List (String × String)
  response : String
  deriving DecidableEq, Repr

/-- Modelled from the spec (§3 lifecycle, §4.3): every write the
sandbox host makes, as (channel, payload) events — at creation each
secret's placeholder (never its value) is handed to the guest; per
exchange the substituted request headers go upstream and the upstream
response is forwarded to the guest verbatim. -/
def sessionWrites (secrets : List Secret) (exchanges : List Exchange) :
    List (Channel × String) :=
  (secrets.map (fun s => (Channel.toGuest, s.placeholder))) ++
    exchanges.flatMap (fun ex =>
      (substituteRequest secrets ex.host ex.reqHeaders).map
        (fun h => (Channel.toUpstream ex.host, h.2)) ++
      [(Channel.toGuest, ex.response)])

end mitm

/-! ## Image extraction (`Builder.extractImage`, src/unnamed/part_002
lines 169–239) and the lexical `path/filepath` functions it uses

Paths are `List Char` so the byte-level `strings.Contains(clean, "..")`
check can be modelled exactly. -/

namespace image

/-- Decompose a path at every `'/'` (the element decomposition that
Go's lexical `path/filepath.Clean` processes). -/
def splitSlash : List Char → List (List Char)
  | [] => [[]]
  | c :: rest =>
    if c = '/' then [] :: splitSlash rest
    else
      match splitSlash rest with
      | [] => [[c]]
      | p :: ps => (c :: p) :: ps

/-- Re-join path components with `'/'`. -/
def joinSlash : List (List Char) → List Char
  | [] => []
  | p :: ps =>
    match ps with
    | [] => p
    | _ :: _ => p ++ '/' :: joinSlash ps

/-- Go `Clean` drops empty and `.` elements. -/
def isSkip (p : List Char) : Bool := p == [] || p == ['.']

/-- One element step of Go `Clean`: `out` is the output stack (most
recent component first).  A `..` pops a poppable component, is dropped
at the root, and is kept for relative paths that cannot pop. -/
def cleanStep (rooted : Bool) (out : List (List Char)) (p : List Char) :
    List (List Char) :=
  if isSkip p then out
  else if p = ['.', '.'] then
    match out with
    | [] => if rooted then [] else [['.', '.']]
    | q :: rest => if q = ['.', '.'] then p :: out else rest
  else p :: out

/-- Go `Clean`'s element processing over a component list. -/
def cleanParts (rooted : Bool) (parts : List (List Char)) : List (List Char) :=
  (parts.foldl (cleanStep rooted) []).reverse

/-- Go `path/filepath.Clean` (Unix), lexically: split on `/`, drop `.`
and empty elements, resolve `..`, re-join; the empty path cleans to
`.`, a fully-cancelled path to `.` or `/`. -/
def goClean (s : List Char) : List Char :=
  if s = [] then ['.']
  else if cleanParts (s.head? == some '/') (splitSlash s) = [] then
    (if s.head? == some '/' then ['/'] else ['.'])
  else if s.head? == some '/' then
    '/' :: joinSlash (cleanParts (s.head? == some '/') (splitSlash s))
  else joinSlash (cleanParts (s.head? == some '/') (splitSlash s))

/-- Go `path/filepath.Join(a, b)`: empty elements are skipped and the
concatenation is `Clean`ed. -/
def goJoin (a b : List Char) : List Char :=
  if a = [] then (if b = [] then [] else goClean b)
  else if b = [] then goClean a
  else goClean (a ++ '/' :: b)

/-- Go `strings.Contains(s, "..")`. -/
def containsDotDot (s : List Char) : Bool := occursIn ['.', '.'] s

/-- The tar entry types `extractImage` distinguishes. -/
inductive TarType where
  | dir | reg | symlink | link | other
  deriving DecidableEq, Repr

/-- The fields of `tar.Header` that `extractImage` consults. -/
structure TarHeader where
  name : List Char
  typeflag : TarType
  linkname : List Char
  deriving DecidableEq, Repr

/-- The filesystem paths one tar entry makes `extractImage` create
(part_002 lines 176–236): an entry whose cleaned `Name` contains `..`
is skipped entirely; a directory, regular file or symlink is created
at `Join(destDir, clean)`; a hardlink is created at the target with
link target path `Join(destDir, Clean(hdr.Linkname))` — the `Linkname`
is not checked for `..`; other entry types are skipped. -/
def extractEntryPaths (destDir : List Char) (hdr : TarHeader) : List (List Char) :=
  let clean := goClean hdr.name
  if containsDotDot clean then []
  else
    let target := goJoin destDir clean
    match hdr.typeflag with
    | .dir => [target]
    | .reg => [target]
    | .symlink => [target]
    | .link => [target, goJoin destDir (goClean hdr.linkname)]
    | .other => []

/-- All paths the extraction loop creates for a header sequence. -/
def extractImagePaths (destDir : List Char) (hdrs : List TarHeader) : List (List Char) :=
  hdrs.flatMap (extractEntryPaths destDir)

/-- `p` lies lexically under directory `d`: it is `d` itself or
extends `d ++ "/"`. -/
def underDir (d p : List Char) : Bool :=
  p == d || leadsWith (d ++ ['/']) p

/-- A good path component: non-empty, not `.` or `..`, slash-free. -/
def isGoodComp (p : List Char) : Bool :=
  !(p == []) && !(p == ['.']) && !(p == ['.', '.']) && p.all (fun c => !(c == '/'))

/-- `d` is an absolute, already-clean, non-root directory path:
`/c₁/…/cₙ` with good components — the shape `os.MkdirTemp` returns
for the extraction destination. -/
def AbsCleanDir (d : List Char) : Prop :=
  ∃ ds, ds ≠ [] ∧ (∀ p ∈ ds, isGoodComp p = true) ∧ d = '/' :: joinSlash ds

end image

end Matchlock

namespace Matchlock

/-! ## Theorems -/

/-- **C6.** The JSON-RPC error codes declared by the SDK are exactly:
parse error -32700, invalid request -32600, method not found -32601,
invalid params -32602, internal error -32603, VM failed -32000,
exec failed -32001, file failed -32002. -/
theorem sdk_error_codes_exact :
    sdk.sdkErrorCodes =
      [-32700, -32600, -32601, -32602, -32603, -32000, -32001, -32002] ∧
    sdk.ErrCodeParse = -32700 ∧ sdk.ErrCodeInvalidRequest = -32600 ∧
    sdk.ErrCodeMethodNotFound = -32601 ∧ sdk.ErrCodeInvalidParams = -32602 ∧
    sdk.ErrCodeInternal = -32603 ∧ sdk.ErrCodeVMFailed = -32000 ∧
    sdk.ErrCodeExecFailed = -32001 ∧ sdk.ErrCodeFileFailed = -32002 := by
  refine ⟨rfl, rfl, rfl, rfl, rfl, rfl, rfl, rfl, rfl⟩

/-- **C8.** Every invocation of `matchlock run` that reaches sandbox
creation passes a network config with `BlockPrivateIPs = true`,
whatever the values of all flags and environment variables feeding the
config. -/
theorem runRun_blockPrivateIPs_always (f : cli.RunFlags) :
    (cli.runRunConfig f).Network.BlockPrivateIPs = true := rfl

/-! ### `errx` helper lemmas -/

mutual

theorem errBeq_refl : (e : errx.Err) → errx.errBeq e e = true
  | .base t m => by simp [errx.errBeq]
  | .errorf m ws => by simp [errx.errBeq, errListBeq_refl ws]

theorem errListBeq_refl : (ws : List errx.Err) → errx.errListBeq ws ws = true
  | [] => by simp [errx.errListBeq]
  | e :: es => by simp [errx.errListBeq, errBeq_refl e, errListBeq_refl es]

end

theorem errorsIs_self (e : errx.Err) : errx.errorsIs e e = true := by
  cases e with
  | base t m => simp [errx.errorsIs, errBeq_refl]
  | errorf m ws => simp [errx.errorsIs, errBeq_refl]

/-- **C9.** `errx.Wrap(kind, err)` is `nil` iff `err` is `nil`;
`Wrap(nil, err)` is `err` itself; and when both are non-nil the result
satisfies `errors.Is` for both the sentinel and the cause. -/
theorem errx_Wrap_contract (kind err : Option errx.Err) (k e : errx.Err) :
    (errx.Wrap kind err = none ↔ err = none) ∧
    errx.Wrap none err = err ∧
    ∃ w, errx.Wrap (some k) (some e) = some w ∧
      errx.errorsIs w k = true ∧ errx.errorsIs w e = true := by
  refine ⟨?_, ?_, ?_⟩
  · cases err with
    | none => simp [errx.Wrap]
    | some e' =>
      cases kind with
      | none => simp [errx.Wrap]
      | some k' => simp [errx.Wrap, errx.With]
  · cases err with
    | none => rfl
    | some e' => rfl
  · refine ⟨.errorf (errx.Wrap.errMsg k ++ ": " ++ errx.Wrap.errMsg e) [k, e], ?_, ?_, ?_⟩
    · simp [errx.Wrap, errx.With, errx.goErrorf]
    · simp [errx.errorsIs, errx.errorsIsAny, errorsIs_self]
    · simp [errx.errorsIs, errx.errorsIsAny, errorsIs_self]

/-- **C9 witness.** The contract evaluated at two concrete sentinel
errors. -/
theorem errx_Wrap_contract_witness :
    (errx.Wrap (some (.base 1 "boot")) (some (.base 2 "cause")) = none ↔
      (some (errx.Err.base 2 "cause") : Option errx.Err) = none) ∧
    errx.Wrap none (some (.base 2 "cause")) = some (.base 2 "cause") ∧
    ∃ w, errx.Wrap (some (.base 1 "boot")) (some (.base 2 "cause")) = some w ∧
      errx.errorsIs w (.base 1 "boot") = true ∧
      errx.errorsIs w (.base 2 "cause") = true :=
  errx_Wrap_contract (some (.base 1 "boot")) (some (.base 2 "cause"))
    (.base 1 "boot") (.base 2 "cause")

/-- **C7.** The SDK `sendRequest` read loop skips response lines with
no ID (notifications) and lines whose ID differs from the request's,
and resolves the call from the first line whose ID matches: its error
object, when present, becomes an `RPCError` with exactly that code and
message; otherwise its result is returned. -/
theorem sendRequest_first_matching_response (id : Nat)
    (pre post : List sdk.Response) (r : sdk.Response)
    (hpre : ∀ x ∈ pre, x.id? ≠ some id) (hr : r.id? = some id) :
    sdk.sendRequestLoop id (pre ++ r :: post) =
      (match r.error? with
       | some (c, m) => .rpcError c m
       | none => .ok r.result) := by
  induction pre with
  | nil =>
    simp only [List.nil_append]
    unfold sdk.sendRequestLoop
    rw [hr]
    simp
  | cons x xs ih =>
    have hx : x.id? ≠ some id := hpre x (by simp)
    have hxs : ∀ y ∈ xs, y.id? ≠ some id := fun y hy => hpre y (by simp [hy])
    simp only [List.cons_append]
    unfold sdk.sendRequestLoop
    cases hxid : x.id? with
    | none => exact ih hxs
    | some rid =>
      have hne : rid ≠ id := fun h => hx (by rw [hxid, h])
      simp only [hne, ne_eq, not_false_eq_true, if_true]
      exact ih hxs

/-- **C7 witness.** A concrete stream: a notification line, a line
with a foreign ID, then the matching line carrying an error object. -/
theorem sendRequest_first_matching_response_witness :
    (∀ x ∈ [(⟨none, none, "note"⟩ : sdk.Response), ⟨some 7, none, "seven"⟩],
        x.id? ≠ some 3) ∧
    (⟨some 3, some (-32000, "vm failed"), ""⟩ : sdk.Response).id? = some 3 ∧
    sdk.sendRequestLoop 3
        ([⟨none, none, "note"⟩, ⟨some 7, none, "seven"⟩] ++
          (⟨some 3, some (-32000, "vm failed"), ""⟩ : sdk.Response) ::
            [⟨some 3, none, "late"⟩]) =
      .rpcError (-32000) "vm failed" :=
  ⟨by decide, rfl, by
    have h := sendRequest_first_matching_response 3
      [⟨none, none, "note"⟩, ⟨some 7, none, "seven"⟩]
      [⟨some 3, none, "late"⟩]
      ⟨some 3, some (-32000, "vm failed"), ""⟩ (by decide) rfl
    simpa using h⟩

/-- **C1 counterexample.** With `--rm=false` and a non-interactive
command, `runRun` keeps the sandbox alive and the process exits 0 even
though the guest command completed with exit code 5 — so the claim
that the CLI always exits with the guest command's exit code is false
as stated. -/
theorem run_rmfalse_exit_code_counterexample :
    (cli.runRunFinish false false true 0 (.completed 5)).code = 0 ∧
    ¬(cli.runRunFinish false false true 0 (.completed 5)).code = 5 := by
  decide

/-- **C1 (amended).** `matchlock run` exits with the guest command's
exit code when `--rm` is set (the default) and in interactive mode;
with `--rm=false` it keeps the sandbox alive and exits 0 regardless of
the guest's exit code.  `matchlock exec` always exits with the guest's
exit code on completion.  Any Matchlock-level failure surfaces as one
printed error line and exit code 1, and an elapsed run timeout (exec
result modelled from the spec) yields exit code 124. -/
theorem cli_exit_code_contract (rm : Bool) (c ie : Nat)
    (out : cli.ExecOutcome) (s : String) :
    (cli.runRunFinish true false true ie (.completed c)).code = c ∧
    cli.runRunFinish rm true true ie out = .exited ie ∧
    (cli.runRunFinish rm false true ie .failed).code = 1 ∧
    (cli.runRunFinish rm false true ie .failed).errorLines = 1 ∧
    (cli.runRunFinish true false true ie cli.timeoutOutcome).code = 124 ∧
    (cli.runRunFinish false false true ie (.completed c)).code = 0 ∧
    (cli.runExecFinish (.completed c)).code = c ∧
    (cli.runExecFinish .failed).code = 1 ∧
    (cli.runExecFinish .failed).errorLines = 1 ∧
    (cli.CLIExit.errorLine s).code = 1 ∧
    (cli.CLIExit.errorLine s).errorLines = 1 :=
  ⟨rfl, rfl, rfl, rfl, rfl, rfl, rfl, rfl, rfl, rfl, rfl⟩

/-- Removing an entry from the store makes its lookup fail. -/
theorem store_lookup_after_remove (entries : List (String × String)) (id : String) :
    state.Store.lookup ⟨entries.filter (fun p => p.1 != id)⟩ id = none := by
  unfold state.Store.lookup
  rw [List.find?_eq_none.mpr]
  · rfl
  · intro x hx
    have hne := (List.mem_filter.mp hx).2
    simp only [bne_iff_ne, ne_eq] at hne
    simp [hne]

/-- **C3.** `rm` on an ID with no sandbox state returns an error whose
message names the ID, and the CLI exits nonzero (exit code 1). -/
theorem rm_nonexistent_id_errors (st : state.Store) (id : String)
    (h : st.lookup id = none) :
    ∃ msg, (state.runRemove st [id]).1 = .err msg ∧
      state.cmdExitCode (state.runRemove st [id]).1 = 1 ∧
      ∃ pre suf, msg = pre ++ id ++ suf := by
  refine ⟨"VM " ++ id ++ " not found", ?_, ?_, "VM ", " not found", rfl⟩
  · simp [state.runRemove, state.Store.remove, h]
  · simp [state.runRemove, state.Store.remove, h, state.cmdExitCode]

/-- **C3 witness.** Removing `vm-zzz` from a store that only knows
`vm-aaa`. -/
theorem rm_nonexistent_id_errors_witness :
    state.Store.lookup ⟨[("vm-aaa", "stopped")]⟩ "vm-zzz" = none ∧
    ∃ msg, (state.runRemove ⟨[("vm-aaa", "stopped")]⟩ ["vm-zzz"]).1 = .err msg ∧
      state.cmdExitCode (state.runRemove ⟨[("vm-aaa", "stopped")]⟩ ["vm-zzz"]).1 = 1 ∧
      ∃ pre suf, msg = pre ++ "vm-zzz" ++ suf :=
  ⟨by decide, rm_nonexistent_id_errors ⟨[("vm-aaa", "stopped")]⟩ "vm-zzz" (by decide)⟩

/-- **C4.** `rm` on a sandbox stored as `stopped` removes its state
(the ID no longer resolves); on a sandbox stored as `running` it
returns an error and leaves the store unchanged. -/
theorem rm_stopped_removes_running_refuses (st : state.Store) (idS idR : String)
    (hS : st.lookup idS = some "stopped") (hR : st.lookup idR = some "running") :
    (∃ st', st.remove idS = .ok st' ∧ st'.lookup idS = none) ∧
    ∃ msg, st.remove idR = .error msg ∧ (state.runRemove st [idR]).2 = st := by
  constructor
  · refine ⟨⟨st.entries.filter (fun p => p.1 != idS)⟩, ?_, store_lookup_after_remove _ _⟩
    simp [state.Store.remove, hS]
  · refine ⟨"VM " ++ idR ++ " is running", ?_, ?_⟩
    · simp [state.Store.remove, hR]
    · simp [state.runRemove, state.Store.remove, hR]

/-- **C4 witness.** A store holding one stopped and one running
sandbox. -/
theorem rm_stopped_removes_running_refuses_witness :
    state.Store.lookup ⟨[("vm-s", "stopped"), ("vm-r", "running")]⟩ "vm-s" = some "stopped" ∧
    state.Store.lookup ⟨[("vm-s", "stopped"), ("vm-r", "running")]⟩ "vm-r" = some "running" ∧
    ((∃ st', state.Store.remove ⟨[("vm-s", "stopped"), ("vm-r", "running")]⟩ "vm-s" = .ok st' ∧
        st'.lookup "vm-s" = none) ∧
      ∃ msg, state.Store.remove ⟨[("vm-s", "stopped"), ("vm-r", "running")]⟩ "vm-r" = .error msg ∧
        (state.runRemove ⟨[("vm-s", "stopped"), ("vm-r", "running")]⟩ ["vm-r"]).2 =
          ⟨[("vm-s", "stopped"), ("vm-r", "running")]⟩) :=
  ⟨by decide, by decide,
    rm_stopped_removes_running_refuses ⟨[("vm-s", "stopped"), ("vm-r", "running")]⟩
      "vm-s" "vm-r" (by decide) (by decide)⟩

/-! ### `runExec` guard lemmas -/

theorem runExecModel_no_state (d v : String) (a t i : Bool) (f : String → Bool) :
    cli.runExecModel d v a t i none f = .errorReturn := by
  simp [cli.runExecModel]

theorem runExecModel_not_running (d v : String) (a t i : Bool)
    (st : cli.VMState) (f : String → Bool) (hst : st.Status ≠ "running") :
    cli.runExecModel d v a t i (some st) f = .errorReturn := by
  simp [cli.runExecModel, hst]

theorem runExecModel_no_socket (d v : String) (a t i : Bool)
    (st : cli.VMState) (f : String → Bool) (hst : st.Status = "running")
    (hs : f (cli.execSocketPath d v) = false) :
    cli.runExecModel d v a t i (some st) f = .errorReturn := by
  simp [cli.runExecModel, hst, hs]

theorem runExecModel_running (d v : String) (a t i : Bool)
    (st : cli.VMState) (f : String → Bool) (hst : st.Status = "running")
    (hs : f (cli.execSocketPath d v) = true) :
    cli.runExecModel d v a t i (some st) f =
      if !a && !(t && i) then .errorReturn
      else if t && i then .relayInteractive (cli.execSocketPath d v)
      else .relayBuffered (cli.execSocketPath d v) := by
  simp [cli.runExecModel, hst, hs]

/-- **C5.** `matchlock exec` returns an error before sending any
request when the sandbox state is missing, its status is not
`running`, or its exec socket does not exist; and a command is relayed
only when the status is `running`, only through the sandbox's exec
socket path. -/
theorem exec_relays_only_running_sandboxes (stateDir vmID : String)
    (hasCmdArgs tty interactive : Bool) (getState : Option cli.VMState)
    (socketExists : String → Bool) :
    (∀ p,
        (cli.runExecModel stateDir vmID hasCmdArgs tty interactive getState socketExists =
            .relayBuffered p ∨
          cli.runExecModel stateDir vmID hasCmdArgs tty interactive getState socketExists =
            .relayInteractive p) →
        getState = some ⟨"running"⟩ ∧
        socketExists (cli.execSocketPath stateDir vmID) = true ∧
        p = cli.execSocketPath stateDir vmID) ∧
    (∀ st, getState = some st → st.Status ≠ "running" →
      cli.runExecModel stateDir vmID hasCmdArgs tty interactive getState socketExists =
        .errorReturn) ∧
    (getState = none →
      cli.runExecModel stateDir vmID hasCmdArgs tty interactive getState socketExists =
        .errorReturn) ∧
    (socketExists (cli.execSocketPath stateDir vmID) = false →
      cli.runExecModel stateDir vmID hasCmdArgs tty interactive getState socketExists =
        .errorReturn) := by
  refine ⟨?_, ?_, ?_, ?_⟩
  · intro p hp
    cases hgs : getState with
    | none =>
      rw [hgs, runExecModel_no_state] at hp
      rcases hp with hp | hp <;> exact absurd hp (by simp)
    | some st =>
      by_cases hst : st.Status = "running"
      case neg =>
        rw [hgs, runExecModel_not_running stateDir vmID _ _ _ st _ hst] at hp
        rcases hp with hp | hp <;> exact absurd hp (by simp)
      case pos =>
        cases hsock : socketExists (cli.execSocketPath stateDir vmID) with
        | false =>
          rw [hgs, runExecModel_no_socket stateDir vmID _ _ _ st _ hst hsock] at hp
          rcases hp with hp | hp <;> exact absurd hp (by simp)
        | true =>
          rw [hgs, runExecModel_running stateDir vmID _ _ _ st _ hst hsock] at hp
          have hstS : st = ⟨"running"⟩ := by cases st; simp_all
          refine ⟨by rw [hstS], rfl, ?_⟩
          rcases hp with hp | hp <;> split_ifs at hp <;>
            (injection hp with h; exact h.symm)
  · intro st hgs hst
    rw [hgs, runExecModel_not_running stateDir vmID _ _ _ st _ hst]
  · intro hgs
    rw [hgs, runExecModel_no_state]
  · intro hsock
    cases hgs : getState with
    | none => rw [runExecModel_no_state]
    | some st =>
      by_cases hst : st.Status = "running"
      · rw [runExecModel_no_socket stateDir vmID _ _ _ st _ hst hsock]
      · rw [runExecModel_not_running stateDir vmID _ _ _ st _ hst]

/-! ### MITM substitution lemmas -/

/-- With unique placeholders, looking up a header value equal to `K`'s
placeholder finds exactly `K` (when `K`'s host set matches). -/
theorem find?_secret_hit (secrets : List mitm.Secret) (K : mitm.Secret)
    (host : String) (hK : K ∈ secrets)
    (hmatch : mitm.secretMatchesHost K host = true)
    (huniq : ∀ s' ∈ secrets, s'.placeholder = K.placeholder → s' = K) :
    secrets.find?
        (fun s => mitm.secretMatchesHost s host && K.placeholder == s.placeholder) =
      some K := by
  induction secrets with
  | nil => cases hK
  | cons s rest ih =>
    by_cases hs : s = K
    · subst hs
      rw [List.find?_cons_of_pos]
      simp [hmatch]
    · have hne : s.placeholder ≠ K.placeholder :=
        fun hph => hs (huniq s (List.mem_cons_self s rest) hph)
      have hKrest : K ∈ rest := by
        rcases List.mem_cons.mp hK with h | h
        · exact absurd h.symm hs
        · exact h
      rw [List.find?_cons_of_neg]
      · exact ih hKrest (fun s' hs' => huniq s' (List.mem_cons_of_mem _ hs'))
      · simp only [Bool.and_eq_true, beq_iff_eq, not_and]
        intro _ h2
        exact absurd h2.symm hne

/-- A value that is no secret's placeholder is left alone. -/
theorem substituteHeaderValue_miss (secrets : List mitm.Secret) (host v : String)
    (hv : ∀ s ∈ secrets, s.placeholder ≠ v) :
    mitm.substituteHeaderValue secrets host v = v := by
  unfold mitm.substituteHeaderValue
  rw [List.find?_eq_none.mpr]
  intro s hs
  simp only [Bool.and_eq_true, beq_iff_eq, not_and]
  intro _ h2
  exact absurd h2.symm (hv s hs)

/-- **C2 counterexample.** The interceptor forwards upstream bytes to
the guest verbatim (spec §4.3: "stream bodies bidirectionally"), so
when the upstream response itself carries the secret value `sv`, those
bytes reach the guest-facing side of the virtio-net device even though
the host (`api.test`) is matched by the secret's host set — the
absolute "never appears" is false over the spec-modelled interceptor. -/
theorem secret_guest_echo_counterexample :
    mitm.secretMatchesHost ⟨"T", "sv", "ph", ["api.test"]⟩ "api.test" = true ∧
    (mitm.Channel.toGuest, "xsvx") ∈
      mitm.sessionWrites [⟨"T", "sv", "ph", ["api.test"]⟩]
        [⟨"api.test", [("Auth", "ph")], "xsvx"⟩] ∧
    mitm.occursInStr "sv" "xsvx" = true := by
  decide

/-- **C2 (amended).** For a secret `K` with value `V` and a host `H`
matched by its host set: a request header to `H` whose value equals
`K`'s placeholder is rewritten to `V` on the upstream side, exactly
once (the rewritten value is not substituted again — placeholders are
never equal to values, spec §3); and the interception layer itself
never writes `V` toward the guest: every write on the guest-facing
side of the virtio-net device is a secret's placeholder or the
verbatim bytes of an upstream response, so the byte sequence `V` can
occur in a guest-facing write only where it already occurs inside an
upstream response (forwarded verbatim — see the counterexample) or
inside a placeholder. -/
theorem secret_substitution_and_confinement
    (secrets : List mitm.Secret) (K : mitm.Secret) (host : String)
    (exchanges : List mitm.Exchange) (req : List (String × String))
    (i : Nat) (name : String)
    (hK : K ∈ secrets)
    (hmatch : mitm.secretMatchesHost K host = true)
    (huniq : ∀ s' ∈ secrets, s'.placeholder = K.placeholder → s' = K)
    (hheader : req[i]? = some (name, K.placeholder))
    (hph : ∀ s ∈ secrets, s.placeholder ≠ K.value) :
    (mitm.substituteRequest secrets host req)[i]? = some (name, K.value) ∧
    mitm.substituteHeaderValue secrets host K.value = K.value ∧
    (∀ payload,
      (mitm.Channel.toGuest, payload) ∈ mitm.sessionWrites secrets exchanges →
      (∃ s ∈ secrets, payload = s.placeholder) ∨
        ∃ ex ∈ exchanges, payload = ex.response) ∧
    (∀ payload,
      (mitm.Channel.toGuest, payload) ∈ mitm.sessionWrites secrets exchanges →
      mitm.occursInStr K.value payload = true →
      (∃ s ∈ secrets, mitm.occursInStr K.value s.placeholder = true) ∨
        ∃ ex ∈ exchanges, mitm.occursInStr K.value ex.response = true) := by
  have hprov : ∀ payload,
      (mitm.Channel.toGuest, payload) ∈ mitm.sessionWrites secrets exchanges →
      (∃ s ∈ secrets, payload = s.placeholder) ∨
        ∃ ex ∈ exchanges, payload = ex.response := by
    intro payload hmem
    unfold mitm.sessionWrites at hmem
    rcases List.mem_append.mp hmem with h | h
    · obtain ⟨s, hs, heq⟩ := List.mem_map.mp h
      exact Or.inl ⟨s, hs, (congrArg Prod.snd heq).symm⟩
    · obtain ⟨ex, hex, hin⟩ := List.mem_flatMap.mp h
      rcases List.mem_append.mp hin with h2 | h2
      · obtain ⟨hh, _, heq⟩ := List.mem_map.mp h2
        have : mitm.Channel.toUpstream ex.host = mitm.Channel.toGuest :=
          congrArg Prod.fst heq
        cases this
      · exact Or.inr ⟨ex, hex, congrArg Prod.snd (List.mem_singleton.mp h2)⟩
  refine ⟨?_, ?_, hprov, ?_⟩
  · unfold mitm.substituteRequest
    rw [List.getElem?_map, hheader]
    simp only [Option.map_some']
    unfold mitm.substituteHeaderValue
    rw [find?_secret_hit secrets K host hK hmatch huniq]
  · exact substituteHeaderValue_miss secrets host K.value hph
  · intro payload hmem hocc
    rcases hprov payload hmem with ⟨s, hs, hpe⟩ | ⟨ex, hex, hpe⟩
    · exact Or.inl ⟨s, hs, hpe ▸ hocc⟩
    · exact Or.inr ⟨ex, hex, hpe ▸ hocc⟩

/-- **C2 witness.** One secret for `api.test`: its placeholder-valued
header is rewritten to the value once, and the value is stable under a
second substitution pass. -/
theorem secret_substitution_and_confinement_witness :
    ((⟨"T", "sv", "ph", ["api.test"]⟩ : mitm.Secret) ∈
      [(⟨"T", "sv", "ph", ["api.test"]⟩ : mitm.Secret)]) ∧
    mitm.secretMatchesHost ⟨"T", "sv", "ph", ["api.test"]⟩ "api.test" = true ∧
    (mitm.substituteRequest [⟨"T", "sv", "ph", ["api.test"]⟩] "api.test"
        [("Auth", "ph")])[0]? = some ("Auth", "sv") ∧
    mitm.substituteHeaderValue [⟨"T", "sv", "ph", ["api.test"]⟩] "api.test" "sv" = "sv" :=
  ⟨List.mem_singleton.mpr rfl, by decide,
    (secret_substitution_and_confinement
        [⟨"T", "sv", "ph", ["api.test"]⟩] ⟨"T", "sv", "ph", ["api.test"]⟩ "api.test"
        [⟨"api.test", [("Auth", "ph")], "rb"⟩] [("Auth", "ph")] 0 "Auth"
        (by decide) (by decide) (by decide) (by decide) (by decide)).1,
    (secret_substitution_and_confinement
        [⟨"T", "sv", "ph", ["api.test"]⟩] ⟨"T", "sv", "ph", ["api.test"]⟩ "api.test"
        [⟨"api.test", [("Auth", "ph")], "rb"⟩] [("Auth", "ph")] 0 "Auth"
        (by decide) (by decide) (by decide) (by decide) (by decide)).2.1⟩

/-- **C5 witness.** A running sandbox with an existing socket is
relayed exactly over its exec socket path. -/
theorem exec_relays_only_running_sandboxes_witness :
    (some (⟨"running"⟩ : cli.VMState) = some ⟨"running"⟩) ∧
    (fun _ => true) (cli.execSocketPath "/run/matchlock" "vm-1") = true ∧
    cli.execSocketPath "/run/matchlock" "vm-1" =
      cli.execSocketPath "/run/matchlock" "vm-1" :=
  (exec_relays_only_running_sandboxes "/run/matchlock" "vm-1" true false false
      (some ⟨"running"⟩) (fun _ => true)).1
    (cli.execSocketPath "/run/matchlock" "vm-1") (Or.inl rfl)

/-! ### Path lemmas for `extractImage` -/

theorem leadsWith_append (p t : List Char) : leadsWith p (p ++ t) = true := by
  induction p with
  | nil => rfl
  | cons a ps ih => simp [leadsWith, ih]

theorem occursIn_of_decomp (pat pre suf : List Char) :
    occursIn pat (pre ++ pat ++ suf) = true := by
  induction pre with
  | nil =>
    unfold occursIn
    simp [leadsWith_append]
  | cons c pre ih =>
    unfold occursIn
    simp only [List.cons_append]
    have ih' : occursIn pat (pre ++ (pat ++ suf)) = true := by
      rw [← List.append_assoc]; exact ih
    simp [ih']

theorem splitSlash_ne_nil : (s : List Char) → image.splitSlash s ≠ []
  | [] => by simp [image.splitSlash]
  | c :: rest => by
    unfold image.splitSlash
    split
    · simp
    · split <;> simp

theorem splitSlash_cons_slash (rest : List Char) :
    image.splitSlash ('/' :: rest) = [] :: image.splitSlash rest := by
  simp [image.splitSlash]

theorem splitSlash_cons_ne (c : Char) (rest : List Char) (hc : c ≠ '/')
    (p : List Char) (ps : List (List Char))
    (h : image.splitSlash rest = p :: ps) :
    image.splitSlash (c :: rest) = (c :: p) :: ps := by
  unfold image.splitSlash
  rw [if_neg hc, h]

theorem splitSlash_append (xs ys : List Char) :
    image.splitSlash (xs ++ '/' :: ys) =
      image.splitSlash xs ++ image.splitSlash ys := by
  induction xs with
  | nil =>
    rw [List.nil_append, splitSlash_cons_slash]
    rfl
  | cons c xs ih =>
    by_cases hc : c = '/'
    · subst hc
      rw [List.cons_append, splitSlash_cons_slash, splitSlash_cons_slash, ih,
        List.cons_append]
    · obtain ⟨p, ps, hps⟩ := List.exists_cons_of_ne_nil (splitSlash_ne_nil xs)
      have h2 : image.splitSlash (xs ++ '/' :: ys) =
          p :: (ps ++ image.splitSlash ys) := by
        rw [ih, hps]; rfl
      rw [List.cons_append, splitSlash_cons_ne c _ hc _ _ h2,
        splitSlash_cons_ne c _ hc _ _ hps]
      rfl

theorem splitSlash_head_init :
    ∀ (s q : List Char) (qs : List (List Char)),
      image.splitSlash s = q :: qs → ∃ suf, s = q ++ suf
  | [], q, qs, h => by
    simp [image.splitSlash] at h
    exact ⟨[], by simp [← h.1]⟩
  | c :: rest, q, qs, h => by
    by_cases hc : c = '/'
    · subst hc
      rw [splitSlash_cons_slash] at h
      injection h with h1 h2
      exact ⟨'/' :: rest, by rw [← h1]; rfl⟩
    · obtain ⟨p, ps, hps⟩ := List.exists_cons_of_ne_nil (splitSlash_ne_nil rest)
      rw [splitSlash_cons_ne c rest hc p ps hps] at h
      injection h with h1 h2
      obtain ⟨suf, hsuf⟩ := splitSlash_head_init rest p ps hps
      exact ⟨suf, by rw [← h1, hsuf]; rfl⟩

theorem mem_splitSlash_decomp :
    ∀ (s p : List Char), p ∈ image.splitSlash s → ∃ pre suf, s = pre ++ p ++ suf
  | [], p, h => by
    simp [image.splitSlash] at h
    exact ⟨[], [], by simp [h]⟩
  | c :: rest, p, h => by
    by_cases hc : c = '/'
    · subst hc
      rw [splitSlash_cons_slash] at h
      rcases List.mem_cons.mp h with h1 | h1
      · exact ⟨[], '/' :: rest, by simp [h1]⟩
      · obtain ⟨pre, suf, hps⟩ := mem_splitSlash_decomp rest p h1
        exact ⟨'/' :: pre, suf, by rw [hps]; rfl⟩
    · obtain ⟨q, qs, hqs⟩ := List.exists_cons_of_ne_nil (splitSlash_ne_nil rest)
      rw [splitSlash_cons_ne c rest hc q qs hqs] at h
      rcases List.mem_cons.mp h with h1 | h1
      · obtain ⟨suf, hsuf⟩ := splitSlash_head_init rest q qs hqs
        exact ⟨[], suf, by rw [h1, List.nil_append, hsuf]; rfl⟩
      · have h2 : p ∈ image.splitSlash rest := by
          rw [hqs]; exact List.mem_cons_of_mem _ h1
        obtain ⟨pre, suf, hps⟩ := mem_splitSlash_decomp rest p h2
        exact ⟨c :: pre, suf, by rw [hps]; rfl⟩

theorem comp_ne_dotdot (s p : List Char)
    (hc : image.containsDotDot s = false) (hp : p ∈ image.splitSlash s) :
    p ≠ ['.', '.'] := by
  intro hpe
  subst hpe
  obtain ⟨pre, suf, hd⟩ := mem_splitSlash_decomp s _ hp
  have htrue : occursIn ['.', '.'] s = true := by
    rw [hd]; exact occursIn_of_decomp _ pre suf
  rw [image.containsDotDot, htrue] at hc
  cases hc

theorem foldl_cleanStep_no_dotdot (r : Bool) :
    ∀ (parts : List (List Char)), (∀ p ∈ parts, p ≠ ['.', '.']) →
      ∀ acc, parts.foldl (image.cleanStep r) acc =
        (parts.filter (fun p => !image.isSkip p)).reverse ++ acc
  | [], _, acc => by simp
  | p :: ps, hnd, acc => by
    have hp : p ≠ ['.', '.'] := hnd p (List.mem_cons_self _ _)
    have hps : ∀ q ∈ ps, q ≠ ['.', '.'] := fun q hq => hnd q (List.mem_cons_of_mem _ hq)
    rw [List.foldl_cons, foldl_cleanStep_no_dotdot r ps hps]
    by_cases hsk : image.isSkip p = true
    · rw [show image.cleanStep r acc p = acc from by simp [image.cleanStep, hsk]]
      rw [List.filter_cons_of_neg (by simp [hsk])]
    · rw [show image.cleanStep r acc p = p :: acc from by
        simp [image.cleanStep, hsk, hp]]
      rw [List.filter_cons_of_pos (by simp [hsk])]
      simp

theorem foldl_cleanStep_elems_ne_nil (r : Bool) :
    ∀ (parts acc : List (List Char)), (∀ q ∈ acc, q ≠ []) →
      ∀ q ∈ parts.foldl (image.cleanStep r) acc, q ≠ []
  | [], acc, hacc => by simpa using hacc
  | p :: ps, acc, hacc => by
    rw [List.foldl_cons]
    refine foldl_cleanStep_elems_ne_nil r ps _ ?_
    intro q hq
    by_cases hsk : image.isSkip p = true
    · rw [show image.cleanStep r acc p = acc from by simp [image.cleanStep, hsk]] at hq
      exact hacc q hq
    · by_cases hdd : p = ['.', '.']
      · subst hdd
        cases acc with
        | nil =>
          rw [show image.cleanStep r [] ['.', '.'] =
              (if r then [] else [['.', '.']]) from by
            simp [image.cleanStep, hsk]] at hq
          cases r with
          | true => simp at hq
          | false =>
            simp at hq
            subst hq
            simp
        | cons q' rest =>
          by_cases hq' : q' = ['.', '.']
          · rw [show image.cleanStep r (q' :: rest) ['.', '.'] =
                ['.', '.'] :: q' :: rest from by
              simp [image.cleanStep, hsk, hq']] at hq
            rcases List.mem_cons.mp hq with h | h
            · subst h; simp
            · exact hacc q h
          · rw [show image.cleanStep r (q' :: rest) ['.', '.'] = rest from by
              simp [image.cleanStep, hsk, hq']] at hq
            exact hacc q (List.mem_cons_of_mem _ hq)
      · rw [show image.cleanStep r acc p = p :: acc from by
          simp [image.cleanStep, hsk, hdd]] at hq
        rcases List.mem_cons.mp hq with h | h
        · subst h
          intro hnil
          apply hsk
          simp [image.isSkip, hnil]
        · exact hacc q h

theorem splitSlash_no_slash :
    ∀ (p : List Char), (∀ c ∈ p, c ≠ '/') → image.splitSlash p = [p]
  | [], _ => by simp [image.splitSlash]
  | c :: rest, h => by
    have hc : c ≠ '/' := h c (List.mem_cons_self _ _)
    have hr := splitSlash_no_slash rest (fun c hc2 => h c (List.mem_cons_of_mem _ hc2))
    exact splitSlash_cons_ne c rest hc rest [] hr

theorem isGoodComp_spec (p : List Char) (h : image.isGoodComp p = true) :
    p ≠ [] ∧ p ≠ ['.'] ∧ p ≠ ['.', '.'] ∧ ∀ c ∈ p, c ≠ '/' := by
  unfold image.isGoodComp at h
  simp only [Bool.and_eq_true, Bool.not_eq_true', beq_eq_false_iff_ne, ne_eq,
    List.all_eq_true, Bool.not_eq_true] at h
  obtain ⟨⟨⟨h1, h2⟩, h3⟩, h4⟩ := h
  refine ⟨h1, h2, h3, fun c hc => ?_⟩
  have := h4 c hc
  simpa using this

theorem isSkip_eq_false (p : List Char) (h1 : p ≠ []) (h2 : p ≠ ['.']) :
    image.isSkip p = false := by
  simp [image.isSkip, h1, h2]

theorem splitSlash_joinSlash :
    ∀ (ds : List (List Char)), ds ≠ [] →
      (∀ p ∈ ds, image.isGoodComp p = true) →
      image.splitSlash (image.joinSlash ds) = ds
  | [], hne, _ => absurd rfl hne
  | [d], _, hgood => by
    have hd := isGoodComp_spec d (hgood d (List.mem_cons_self _ _))
    rw [show image.joinSlash [d] = d from rfl]
    exact splitSlash_no_slash d hd.2.2.2
  | d :: d' :: ds, _, hgood => by
    have hd := isGoodComp_spec d (hgood d (List.mem_cons_self _ _))
    have hrest := splitSlash_joinSlash (d' :: ds) (by simp)
      (fun p hp => hgood p (List.mem_cons_of_mem _ hp))
    rw [show image.joinSlash (d :: d' :: ds) =
        d ++ '/' :: image.joinSlash (d' :: ds) from rfl]
    rw [splitSlash_append, splitSlash_no_slash d hd.2.2.2, hrest]
    rfl

theorem joinSlash_append :
    ∀ (ds es : List (List Char)), ds ≠ [] → es ≠ [] →
      image.joinSlash (ds ++ es) =
        image.joinSlash ds ++ '/' :: image.joinSlash es
  | [], _, hne, _ => absurd rfl hne
  | [d], es, _, hes => by
    obtain ⟨e, es', hes'⟩ := List.exists_cons_of_ne_nil hes
    subst hes'
    rfl
  | d :: d' :: ds, es, _, hes => by
    have ih := joinSlash_append (d' :: ds) es (by simp) hes
    rw [show (d :: d' :: ds) ++ es = d :: ((d' :: ds) ++ es) from rfl]
    obtain ⟨e, es', hes'⟩ := List.exists_cons_of_ne_nil hes
    rw [show image.joinSlash (d :: ((d' :: ds) ++ es)) =
        d ++ '/' :: image.joinSlash ((d' :: ds) ++ es) from by
      subst hes'; rfl]
    rw [ih,
      show image.joinSlash (d :: d' :: ds) =
        d ++ '/' :: image.joinSlash (d' :: ds) from rfl]
    simp

theorem joinSlash_cons_ne_nil (q : List Char) (qs : List (List Char)) (hq : q ≠ []) :
    image.joinSlash (q :: qs) ≠ [] := by
  unfold image.joinSlash
  cases qs with
  | nil => simpa using hq
  | cons a as => simp

theorem goClean_ne_nil (s : List Char) : image.goClean s ≠ [] := by
  unfold image.goClean
  split
  · simp
  · split
    · split <;> simp
    · split
      · simp
      · rename_i hs hcomps hrooted
        have helems : ∀ q ∈ image.cleanParts (s.head? == some '/')
            (image.splitSlash s), q ≠ [] := by
          intro q hq
          rw [image.cleanParts, List.mem_reverse] at hq
          exact foldl_cleanStep_elems_ne_nil _ _ [] (by simp) q hq
        obtain ⟨q, qs, hqs⟩ := List.exists_cons_of_ne_nil hcomps
        rw [hqs]
        exact joinSlash_cons_ne_nil q qs
          (helems q (by rw [hqs]; exact List.mem_cons_self _ _))

/-- The heart of the confinement argument: joining the destination
directory with any cleaned, `..`-free path lands under the
destination. -/
theorem goJoin_under (destDir c : List Char) (h : image.AbsCleanDir destDir)
    (hc : image.containsDotDot c = false) (hcne : c ≠ []) :
    image.underDir destDir (image.goJoin destDir c) = true := by
  obtain ⟨ds, hdsne, hdsgood, hdeq⟩ := h
  have hdne : destDir ≠ [] := by rw [hdeq]; simp
  rw [image.goJoin, if_neg hdne, if_neg hcne]
  have hsplit : image.splitSlash (destDir ++ '/' :: c) =
      ([] :: ds) ++ image.splitSlash c := by
    rw [splitSlash_append, hdeq, splitSlash_cons_slash,
      splitSlash_joinSlash ds hdsne hdsgood]
  have hne2 : destDir ++ '/' :: c ≠ [] := by simp [hdne]
  have hhead : ((destDir ++ '/' :: c).head? == some '/') = true := by
    rw [hdeq]; rfl
  have hnd : ∀ p ∈ ([] :: ds) ++ image.splitSlash c, p ≠ ['.', '.'] := by
    intro p hp
    rcases List.mem_append.mp hp with h1 | h1
    · rcases List.mem_cons.mp h1 with h2 | h2
      · subst h2; simp
      · exact (isGoodComp_spec p (hdsgood p h2)).2.2.1
    · exact comp_ne_dotdot c p hc h1
  have hfilter : (([] :: ds) ++ image.splitSlash c).filter (fun p => !image.isSkip p) =
      ds ++ (image.splitSlash c).filter (fun p => !image.isSkip p) := by
    rw [List.filter_append, List.filter_cons_of_neg (by simp [image.isSkip]),
      List.filter_eq_self.mpr]
    intro d hd
    have hspec := isGoodComp_spec d (hdsgood d hd)
    simp [isSkip_eq_false d hspec.1 hspec.2.1]
  have hcomps : image.cleanParts ((destDir ++ '/' :: c).head? == some '/')
      (image.splitSlash (destDir ++ '/' :: c)) =
      ds ++ (image.splitSlash c).filter (fun p => !image.isSkip p) := by
    rw [image.cleanParts, hsplit,
      foldl_cleanStep_no_dotdot _ _ hnd [], List.append_nil, hfilter,
      List.reverse_reverse]
  have hcompsne : ds ++ (image.splitSlash c).filter (fun p => !image.isSkip p) ≠ [] := by
    simp [hdsne]
  unfold image.goClean
  rw [if_neg hne2, hcomps, if_neg hcompsne, if_pos hhead]
  cases hcf : (image.splitSlash c).filter (fun p => !image.isSkip p) with
  | nil =>
    rw [List.append_nil, ← hdeq]
    simp [image.underDir]
  | cons q qs =>
    rw [joinSlash_append ds (q :: qs) hdsne (by simp)]
    have hshape : ('/' :: (image.joinSlash ds ++ '/' :: image.joinSlash (q :: qs))) =
        (destDir ++ ['/']) ++ image.joinSlash (q :: qs) := by
      rw [hdeq]; simp
    rw [hshape]
    rw [show image.underDir destDir ((destDir ++ ['/']) ++ image.joinSlash (q :: qs)) =
        (((destDir ++ ['/']) ++ image.joinSlash (q :: qs)) == destDir ||
          leadsWith (destDir ++ ['/']) ((destDir ++ ['/']) ++ image.joinSlash (q :: qs)))
      from rfl]
    rw [leadsWith_append]
    simp

/-- **C10 counterexample.** `extractImage` checks only the entry's
`Name` for `..`: a hardlink entry with a clean name but a traversing
`Linkname` produces a hardlink target path outside `destDir`. -/
theorem extractImage_hardlink_escape_counterexample :
    image.containsDotDot (image.goClean "a".data) = false ∧
    image.goJoin "/tmp/x".data (image.goClean "../../etc/pw".data) = "/etc/pw".data ∧
    (image.goJoin "/tmp/x".data (image.goClean "../../etc/pw".data)) ∈
      image.extractEntryPaths "/tmp/x".data
        ⟨"a".data, .link, "../../etc/pw".data⟩ ∧
    image.underDir "/tmp/x".data
      (image.goJoin "/tmp/x".data (image.goClean "../../etc/pw".data)) = false := by
  decide

/-- **C10 (amended).** Every tar entry whose cleaned name contains
`..` is skipped entirely by `extractImage`; every directory, regular
file and symlink path it creates lies under `destDir`, and so does
every hardlink target path whose cleaned `Linkname` contains no `..`
(the code performs no `..` check on `Linkname`, so a traversing
linkname may escape — see the counterexample). -/
theorem extractImage_paths_confined (destDir : List Char)
    (hdrs : List image.TarHeader) (habs : image.AbsCleanDir destDir)
    (hlink : ∀ hdr ∈ hdrs, hdr.typeflag = .link →
      image.containsDotDot (image.goClean hdr.linkname) = false) :
    (∀ hdr ∈ hdrs, image.containsDotDot (image.goClean hdr.name) = true →
      image.extractEntryPaths destDir hdr = []) ∧
    ∀ p ∈ image.extractImagePaths destDir hdrs,
      image.underDir destDir p = true := by
  constructor
  · intro hdr _ hdd
    simp [image.extractEntryPaths, hdd]
  · intro p hp
    obtain ⟨hdr, hhdr, hpe⟩ := List.mem_flatMap.mp hp
    by_cases hdd : image.containsDotDot (image.goClean hdr.name) = true
    · rw [image.extractEntryPaths] at hpe
      simp [hdd] at hpe
    · have hdd' : image.containsDotDot (image.goClean hdr.name) = false :=
        Bool.not_eq_true _ ▸ Bool.eq_false_iff.mpr hdd
      have htarget : image.underDir destDir
          (image.goJoin destDir (image.goClean hdr.name)) = true :=
        goJoin_under destDir (image.goClean hdr.name) habs hdd'
          (goClean_ne_nil hdr.name)
      rw [image.extractEntryPaths] at hpe
      simp only [hdd', Bool.false_eq_true, if_false] at hpe
      cases htf : hdr.typeflag with
      | dir =>
        rw [htf] at hpe
        rw [List.mem_singleton.mp hpe]
        exact htarget
      | reg =>
        rw [htf] at hpe
        rw [List.mem_singleton.mp hpe]
        exact htarget
      | symlink =>
        rw [htf] at hpe
        rw [List.mem_singleton.mp hpe]
        exact htarget
      | link =>
        rw [htf] at hpe
        rcases List.mem_cons.mp hpe with h1 | h1
        · rw [h1]; exact htarget
        · rw [List.mem_singleton.mp h1]
          exact goJoin_under destDir (image.goClean hdr.linkname) habs
            (hlink hdr hhdr htf) (goClean_ne_nil hdr.linkname)
      | other =>
        rw [htf] at hpe
        simp at hpe

/-- **C10 witness.** A concrete destination and header list: the
`../evil` entry contributes nothing, the others stay confined. -/
theorem extractImage_paths_confined_witness :
    image.AbsCleanDir "/tmp/x".data ∧
    (∀ hdr ∈ [(⟨"../evil".data, image.TarType.reg, []⟩ : image.TarHeader),
        ⟨"a/b".data, .reg, []⟩, ⟨"lk".data, .link, "a/b".data⟩],
      hdr.typeflag = .link →
        image.containsDotDot (image.goClean hdr.linkname) = false) ∧
    ((∀ hdr ∈ [(⟨"../evil".data, image.TarType.reg, []⟩ : image.TarHeader),
        ⟨"a/b".data, .reg, []⟩, ⟨"lk".data, .link, "a/b".data⟩],
      image.containsDotDot (image.goClean hdr.name) = true →
        image.extractEntryPaths "/tmp/x".data hdr = []) ∧
      ∀ p ∈ image.extractImagePaths "/tmp/x".data
          [(⟨"../evil".data, image.TarType.reg, []⟩ : image.TarHeader),
            ⟨"a/b".data, .reg, []⟩, ⟨"lk".data, .link, "a/b".data⟩],
        image.underDir "/tmp/x".data p = true) :=
  ⟨⟨["tmp".data, "x".data], by decide, by decide, by decide⟩, by decide,
    extractImage_paths_confined "/tmp/x".data
      [⟨"../evil".data, .reg, []⟩, ⟨"a/b".data, .reg, []⟩,
        ⟨"lk".data, .link, "a/b".data⟩]
      ⟨["tmp".data, "x".data], by decide, by decide, by decide⟩ (by decide)⟩

end Matchlock
